import Mathlib

/-!
# Verification of the godest pub-sub / Action Cable core

This file gives a shallow embedding, in Lean 4, of the concurrency and routing
core of the sargassum-world/godest repository, and settles a list of claims
about it.  Each section embeds one component, translated from the Go source:

* `pubsub/hub.go` — the topic-based `Hub` (subscribe, cancel, close, broadcast);
* `actioncable/connections.go` — the per-connection Action Cable command loop;
* `pubsub/broker.go` — `Broker.Subscribe` and the SUB/UNSUB/broadcast ordering,
  modelled as a small-step system with an event trace;
* the identifier `Signer` (HMAC-SHA512 over stream names, base64-encoded), with
  executable SHA-512, HMAC and base64 translated from the Go standard library
  routines that the source calls;
* `pubsub/broker-router.go` — the radix-tree `HandlerRouter` (`Add`/`Find`).

Stateful Go code is modelled by explicit state passing.  Go `map` values are
modelled as association lists; a `nil` map is modelled as `Option.none`
(lookups on a nil map miss; assigning into a nil map panics).  Functions whose
Go counterparts can panic or block forever return `Option`, with `none`
modelling the panic or the non-returning call; each such spot is commented at
its definition.
-/

namespace Godest

/-! ## Association lists modelling Go maps

Go maps keyed by strings are modelled as association lists with unique keys.
`alLookup` models `m[k]` (missing keys return the zero value with `ok=false`),
`alSet` models `m[k] = v`, and `alErase` models `delete(m, k)`. -/

def alLookup {β : Type} : List (String × β) → String → Option β
  | [], _ => none
  | (k, v) :: rest, key => if k = key then some v else alLookup rest key

def alSet {β : Type} : List (String × β) → String → β → List (String × β)
  | [], key, v => [(key, v)]
  | (k, w) :: rest, key, v =>
    if k = key then (k, v) :: rest else (k, w) :: alSet rest key v

def alErase {β : Type} : List (String × β) → String → List (String × β)
  | [], _ => []
  | (k, w) :: rest, key =>
    if k = key then alErase rest key else (k, w) :: alErase rest key

theorem alLookup_erase {β : Type} (m : List (String × β)) (t u : String) :
    alLookup (alErase m t) u = if u = t then none else alLookup m u := by
  induction m with
  | nil => simp [alErase, alLookup]
  | cons p rest ih =>
    obtain ⟨k, v⟩ := p
    by_cases hk : k = t <;> by_cases hku : k = u
    all_goals simp_all [alErase, alLookup, ih]

/-! ## Hub (pubsub/hub.go)

The hub state.  A subscription record in Go (`subscription[Message]`) holds a
topic, a receive callback and a cancel function; here each subscription is
identified by a numeric id `sid`, and its receive callback is supplied as an
oracle where needed.  Calling a subscription's `cancel` closes the done-channel
returned by `Subscribe` (it cancels the context whose `Done()` channel was
returned), so the set `cancelled` tracks exactly the subscriptions whose
done-channel has been closed. -/

structure BroadcastingChange where
  Added : List String
  Removed : List String
deriving DecidableEq

structure HubState where
  /-- `h.broadcastings`; `none` models the nil map after `Close`. -/
  broadcastings : Option (List (String × List Nat))
  /-- Whether `h.brChanges` is non-nil (`Close` nils it). -/
  brChanges : Bool
  /-- Subscriptions whose `cancel` has run, i.e. whose done-channel is closed. -/
  cancelled : List Nat
  /-- Events sent over the `brChanges` channel, in order. -/
  events : List BroadcastingChange
deriving DecidableEq

/-- All subscription ids currently registered in a broadcastings map. -/
def allSids : List (String × List Nat) → List Nat
  | [] => []
  | (_, br) :: rest => br ++ allSids rest

/-- Subscriptions outstanding on the hub (empty for the nil map). -/
def outstanding (s : HubState) : List Nat :=
  match s.broadcastings with
  | none => []
  | some m => allSids m

/-- Models `Hub.Subscribe` (hub.go lines 84–116) for a fresh subscription id.
Returns `none` when the call panics: after `Close` the broadcastings map is
nil, so the lookup misses (`addedTopic` is true) and the assignment
`h.broadcastings[sub.topic] = br` panics.  Otherwise the subscription is added
to the topic's broadcasting set, and an `Added` event is sent when the topic
was previously absent and `brChanges` is non-nil. -/
def hubSubscribe (s : HubState) (sid : Nat) (topic : String) : Option HubState :=
  match s.broadcastings with
  | none => none
  | some m =>
    match alLookup m topic with
    | some br => some { s with broadcastings := some (alSet m topic (br ++ [sid])) }
    | none =>
      some { s with
        broadcastings := some (alSet m topic [sid]),
        events := if s.brChanges then s.events ++ [⟨[topic], []⟩] else s.events }

/-- Models `Hub.Close` (hub.go lines 59–77): cancels every subscription in
every broadcasting set, closes and forgets `brChanges`, and nils the
broadcastings map.  No `Removed` event is emitted. -/
def hubClose (s : HubState) : HubState :=
  { broadcastings := none
    brChanges := false
    cancelled := s.cancelled ++ outstanding s
    events := s.events }

/-- The loop body of `Hub.Cancel` (hub.go lines 124–133): for each listed
topic present in the map, cancel all its subscriptions and delete the topic.
Returns the final map together with the newly cancelled subscription ids. -/
def cancelLoop : List (String × List Nat) → List Nat → List String →
    List (String × List Nat) × List Nat
  | m, acc, [] => (m, acc)
  | m, acc, t :: ts =>
    match alLookup m t with
    | none => cancelLoop m acc ts
    | some br => cancelLoop (alErase m t) (acc ++ br) ts

/-- Models `Hub.Cancel` (hub.go lines 119–138).  After the loop, when
`brChanges` is non-nil and at least one topic was given, a single event
`BroadcastingChange{Removed: topics}` is sent — listing all given topics,
whether or not they were present in the map.  (On the nil map after `Close`
the lookups all miss and nothing changes.) -/
def hubCancel (s : HubState) (topics : List String) : HubState :=
  let step :
      Option (List (String × List Nat)) × List Nat :=
    match s.broadcastings with
    | none => (none, [])
    | some m =>
      let r := cancelLoop m [] topics
      (some r.1, r.2)
  { s with
    broadcastings := step.1
    cancelled := s.cancelled ++ step.2
    events :=
      if s.brChanges ∧ topics ≠ [] then s.events ++ [⟨[], topics⟩] else s.events }

/-- Models `Hub.Broadcast` (hub.go lines 170–204).  `errs sid = true` means
subscription `sid`'s receive callback returns a non-nil error for this
message.  The result is `none` when the call never returns: `Broadcast` still
holds the read lock (its `RUnlock` is deferred to function exit) when it calls
`h.unsubscribe(unsubscribe...)`, and `unsubscribe` begins with `h.mu.Lock()`
whenever its argument list is non-empty — a write-lock acquisition that blocks
forever because the same goroutine holds the read lock.  So the call returns
only when no callback errored (the unsubscribe list is empty and
`unsubscribe` returns before taking the lock), leaving the state unchanged.
On a missing topic (including the nil map after `Close`) it returns
immediately without invoking anything. -/
def hubBroadcast (s : HubState) (topic : String) (errs : Nat → Bool) :
    Option HubState :=
  match s.broadcastings with
  | none => some s
  | some m =>
    match alLookup m topic with
    | none => some s
    | some br => if br.filter errs = [] then some s else none

/-! ### Hub claims -/

/-- C1: for a broadcast where some subscription's receive callback returns a
non-nil error, `Hub.Broadcast` never returns: it calls `unsubscribe` while the
deferred `RUnlock` still holds the read lock, and `unsubscribe` blocks forever
in `h.mu.Lock()`.  The done-channel is therefore never closed by `Broadcast`
and the subscription is never removed.  This theorem evaluates the model at
the failing input: one subscription (id 0) on topic `t` whose callback
errors. -/
theorem hub_broadcast_error_receiver_blocks :
    hubBroadcast ⟨some [("t", [0])], true, [], []⟩ "t" (fun _ => true) = none := rfl

/-- C3 counterexample: `Hub.Cancel` emits a `Removed` event listing all the
given topics, including ones absent from the broadcastings map.  Here topic
`b` is absent (lookup misses) yet the single emitted event lists it. -/
theorem hub_cancel_event_lists_absent_topic :
    (hubCancel ⟨some [("a", [0])], true, [], []⟩ ["a", "b"]).events
        = [⟨[], ["a", "b"]⟩] ∧
    alLookup [("a", [0])] "b" = none := ⟨rfl, rfl⟩

/-- C3 (amended): for a hub with a live broadcastings map, a non-nil change
channel and a non-empty topic list, `Hub.Cancel` cancels every subscription on
every present listed topic, removes every listed topic from the map, and emits
a single `Removed` change event listing all the given topics (present or
not). -/
theorem hub_cancel_amended (s : HubState) (m : List (String × List Nat))
    (topics : List String) (t : String) (br : List Nat) (sid : Nat)
    (hm : s.broadcastings = some m) (hch : s.brChanges = true)
    (hne : topics ≠ []) (hmem : t ∈ topics) (hbr : alLookup m t = some br)
    (hsid : sid ∈ br) :
    (∃ mFinal, (hubCancel s topics).broadcastings = some mFinal ∧
      alLookup mFinal t = none) ∧
    sid ∈ (hubCancel s topics).cancelled ∧
    (hubCancel s topics).events = s.events ++ [⟨[], topics⟩] := by
  have lookSub : ∀ ts m0 acc u,
      alLookup (cancelLoop m0 acc ts).1 u = none ∨
      alLookup (cancelLoop m0 acc ts).1 u = alLookup m0 u := by
    intro ts
    induction ts with
    | nil => intro m0 acc u; right; rfl
    | cons t0 ts ih =>
      intro m0 acc u
      cases h : alLookup m0 t0 with
      | none => simpa [cancelLoop, h] using ih m0 acc u
      | some br0 =>
        rcases ih (alErase m0 t0) (acc ++ br0) u with h1 | h1
        · left; simpa [cancelLoop, h] using h1
        · rw [alLookup_erase] at h1
          by_cases hu : u = t0
          · left; simpa [cancelLoop, h, hu] using h1
          · right; simpa [cancelLoop, h, hu] using h1
  have lookMem : ∀ ts m0 acc u, u ∈ ts →
      alLookup (cancelLoop m0 acc ts).1 u = none := by
    intro ts
    induction ts with
    | nil => intro m0 acc u h; simp at h
    | cons t0 ts ih =>
      intro m0 acc u hu
      rcases List.mem_cons.mp hu with h | h
      · subst h
        cases h0 : alLookup m0 u with
        | none =>
          rcases lookSub ts m0 acc u with h1 | h1 <;>
            simp [cancelLoop, h0, h1]
        | some br0 =>
          rcases lookSub ts (alErase m0 u) (acc ++ br0) u with h1 | h1
          · simpa [cancelLoop, h0] using h1
          · rw [alLookup_erase] at h1
            simpa [cancelLoop, h0] using h1
      · cases h0 : alLookup m0 t0 with
        | none => simpa [cancelLoop, h0] using ih m0 acc u h
        | some br0 => simpa [cancelLoop, h0] using ih (alErase m0 t0) (acc ++ br0) u h
  have accMono : ∀ ts m0 acc x, x ∈ acc → x ∈ (cancelLoop m0 acc ts).2 := by
    intro ts
    induction ts with
    | nil => intro m0 acc x hx; simpa [cancelLoop] using hx
    | cons t0 ts ih =>
      intro m0 acc x hx
      cases h0 : alLookup m0 t0 with
      | none => simpa [cancelLoop, h0] using ih m0 acc x hx
      | some br0 =>
        simpa [cancelLoop, h0] using
          ih (alErase m0 t0) (acc ++ br0) x (List.mem_append_left _ hx)
  have cancMem : ∀ ts m0 acc u bru x, u ∈ ts → alLookup m0 u = some bru →
      x ∈ bru → x ∈ (cancelLoop m0 acc ts).2 := by
    intro ts
    induction ts with
    | nil => intro m0 acc u bru x h; simp at h
    | cons t0 ts ih =>
      intro m0 acc u bru x hu hlook hx
      rcases List.mem_cons.mp hu with h | h
      · subst h
        simp only [cancelLoop, hlook]
        exact accMono ts (alErase m0 u) (acc ++ bru) x
          (List.mem_append_right _ hx)
      · cases h0 : alLookup m0 t0 with
        | none => simpa [cancelLoop, h0] using ih m0 acc u bru x h hlook hx
        | some br0 =>
          by_cases hut : u = t0
          · subst hut
            rw [hlook] at h0
            cases h0
            simp only [cancelLoop, hlook]
            exact accMono ts (alErase m0 u) (acc ++ bru) x
              (List.mem_append_right _ hx)
          · refine ?_
            have hlook2 : alLookup (alErase m0 t0) u = some bru := by
              rw [alLookup_erase]; simp [hut, hlook]
            simpa [cancelLoop, h0] using
              ih (alErase m0 t0) (acc ++ br0) u bru x h hlook2 hx
  refine ⟨⟨(cancelLoop m [] topics).1, ?_, ?_⟩, ?_, ?_⟩
  · simp [hubCancel, hm]
  · exact lookMem topics m [] t hmem
  · simp only [hubCancel, hm]
    exact List.mem_append_right _ (cancMem topics m [] t br sid hmem hbr hsid)
  · simp [hubCancel, hch, hne]

/-- C3 witness: the amended theorem applied to a concrete hub holding
subscription 7 on topic `a`, cancelling topics `a` and `b`. -/
theorem hub_cancel_amended_witness :
    (∃ mFinal,
      (hubCancel ⟨some [("a", [7])], true, [], []⟩ ["a", "b"]).broadcastings
          = some mFinal ∧ alLookup mFinal "a" = none) ∧
    7 ∈ (hubCancel ⟨some [("a", [7])], true, [], []⟩ ["a", "b"]).cancelled ∧
    (hubCancel ⟨some [("a", [7])], true, [], []⟩ ["a", "b"]).events
        = [] ++ [⟨[], ["a", "b"]⟩] :=
  hub_cancel_amended ⟨some [("a", [7])], true, [], []⟩ [("a", [7])]
    ["a", "b"] "a" [7] 7 rfl rfl (by decide) (by decide) rfl (by decide)

/-- C5: after `Hub.Close` returns, every subscription outstanding at the time
of the call has had its `cancel` run (its done-channel is closed), and any
later `Broadcast`, on any topic, finds the nil broadcastings map, logs, and
returns without panicking or changing anything. -/
theorem hub_close_cancels_and_broadcast_noop (s : HubState) (sid : Nat)
    (hout : sid ∈ outstanding s) :
    sid ∈ (hubClose s).cancelled ∧
    ∀ topic errs, hubBroadcast (hubClose s) topic errs = some (hubClose s) := by
  exact ⟨List.mem_append_right _ hout, fun _ _ => rfl⟩

/-- C5 witness: closing a hub with subscription 5 on topic `t`. -/
theorem hub_close_cancels_and_broadcast_noop_witness :
    5 ∈ (hubClose ⟨some [("t", [5])], true, [], []⟩).cancelled ∧
    ∀ topic errs,
      hubBroadcast (hubClose ⟨some [("t", [5])], true, [], []⟩) topic errs
        = some (hubClose ⟨some [("t", [5])], true, [], []⟩) :=
  hub_close_cancels_and_broadcast_noop ⟨some [("t", [5])], true, [], []⟩ 5
    (by decide)

/-- C9: calling `Hub.Subscribe` after `Hub.Close` panics instead of returning
a done-channel: the lookup on the nil broadcastings map misses, so the code
takes the `addedTopic` branch and assigns into the nil map, which panics in
Go.  In the model the panic is the `none` result, for every prior state,
subscription and topic. -/
theorem hub_subscribe_after_close_panics (s : HubState) (sid : Nat)
    (topic : String) :
    hubSubscribe (hubClose s) sid topic = none := rfl

/-! ## Action Cable connection (actioncable/connections.go)

The per-connection command loop.  Server messages enqueued on the `toClient`
channel are recorded in order in `sent`.  The upstream `Handler` interface
(`HandleSubscription` / `HandleAction`) is supplied as an oracle — a non-nil
error from `HandleSubscription` is `handleSub id = false`.  `handledSubs`
records the identifiers for which `HandleSubscription` was actually invoked,
and `cancelledSubs` the identifiers whose recorded unsubscriber (cancel
function) was invoked by an unsubscribe command. -/

inductive ServerMsg
  | welcome
  | confirm (identifier : String)
  | reject (identifier : String)
  | dataMsg (identifier message : String)
deriving DecidableEq

inductive ClientCmd
  | subscribe (identifier : String)
  | unsubscribe (identifier : String)
  | action (identifier dataStr : String)
  | unknown (cmd : String)
deriving DecidableEq

structure HOracle where
  handleSub : String → Bool
  handleAct : String → String → Bool

structure ConnState where
  /-- Keys of `c.unsubscribers` (identifier → cancel function). -/
  unsubscribers : List String
  /-- Server messages enqueued on `c.toClient`, in order. -/
  sent : List ServerMsg
  /-- Identifiers passed to `c.h.HandleSubscription`, in order. -/
  handledSubs : List String
  /-- Identifiers whose recorded cancel function was invoked. -/
  cancelledSubs : List String
deriving DecidableEq

/-- Models `Conn.subscribe` (connections.go lines 160–181).  If the identifier
already has a recorded unsubscriber, only a `confirm_subscription` is re-sent
and the handler is not invoked.  Otherwise `HandleSubscription` runs; on error
a `reject_subscription` is sent, the fresh context is cancelled (no
subscription was recorded, so `cancelledSubs` is untouched) and the wrapped
error is returned (the Bool result `true`); on success the cancel function is
recorded and a confirmation is sent. -/
def connSubscribe (o : HOracle) (s : ConnState) (identifier : String) :
    ConnState × Bool :=
  if identifier ∈ s.unsubscribers then
    ({ s with sent := s.sent ++ [.confirm identifier] }, false)
  else if o.handleSub identifier then
    ({ s with
        handledSubs := s.handledSubs ++ [identifier]
        unsubscribers := s.unsubscribers ++ [identifier]
        sent := s.sent ++ [.confirm identifier] }, false)
  else
    ({ s with
        handledSubs := s.handledSubs ++ [identifier]
        sent := s.sent ++ [.reject identifier] }, true)

/-- Models `Conn.receive` (connections.go lines 184–203): dispatch one Action
Cable command.  The Bool result is whether a non-nil error was returned.
An unsubscribe for an identifier with no recorded unsubscriber returns nil
without touching anything; otherwise the unsubscriber runs and the entry is
deleted.  An unknown command is an error. -/
def connReceive (o : HOracle) (s : ConnState) : ClientCmd → ConnState × Bool
  | .subscribe identifier => connSubscribe o s identifier
  | .unsubscribe identifier =>
    if identifier ∈ s.unsubscribers then
      ({ s with
          unsubscribers := s.unsubscribers.erase identifier
          cancelledSubs := s.cancelledSubs ++ [identifier] }, false)
    else (s, false)
  | .action identifier dataStr =>
    if o.handleAct identifier dataStr then (s, false) else (s, true)
  | .unknown _ => (s, true)

/-- Models the command-processing part of `Conn.receiveAll` (connections.go
lines 233–261): commands are processed in order until one returns a non-nil
error, which is returned from `receiveAll` (terminating the connection's
error group).  The final Nat is how many commands were processed. -/
def connReceiveAll (o : HOracle) (s : ConnState) :
    List ClientCmd → ConnState × Bool × Nat
  | [] => (s, false, 0)
  | c :: cs =>
    match connReceive o s c with
    | (s1, true) => (s1, true, 1)
    | (s1, false) =>
      let r := connReceiveAll o s1 cs
      (r.1, r.2.1, r.2.2 + 1)

/-- Oracle rejecting every subscription identifier except `good`. -/
def rejectBadOracle : HOracle :=
  ⟨fun identifier => identifier = "good", fun _ _ => true⟩

/-! ### Connection claims -/

/-- C2 counterexample: a subscribe command refused by the handler (an
authorization failure makes `HandleSubscription` return a non-nil error) does
send `reject_subscription`, but `Conn.subscribe` returns the wrapped error,
`Conn.receive` propagates it, and `receiveAll` returns — terminating the
connection.  Here the second command (a subscribe that would succeed) is never
processed: only 1 of 2 commands ran, the loop ended with an error, and `good`
never reached the handler. -/
theorem conn_subscribe_rejection_terminates :
    connReceiveAll rejectBadOracle ⟨[], [], [], []⟩
        [.subscribe "bad", .subscribe "good"]
      = (⟨[], [.reject "bad"], ["bad"], []⟩, true, 1) := by decide

/-- C2 (amended): when a subscribe command's identifier is new and the
subscription handler refuses it, the server sends a `reject_subscription`
frame for that identifier, and the receive loop returns the subscription
error, terminating the connection; no subsequent command is processed and no
subscription is recorded. -/
theorem conn_subscribe_rejection_amended (o : HOracle) (s : ConnState)
    (identifier : String) (rest : List ClientCmd)
    (hnew : identifier ∉ s.unsubscribers)
    (hrej : o.handleSub identifier = false) :
    connReceiveAll o s (.subscribe identifier :: rest)
      = ({ s with
            handledSubs := s.handledSubs ++ [identifier]
            sent := s.sent ++ [.reject identifier] }, true, 1) := by
  simp [connReceiveAll, connReceive, connSubscribe, hnew, hrej]

/-- C2 witness: the amended theorem at a fresh connection, a rejected
identifier `bad`, and one further pending command. -/
theorem conn_subscribe_rejection_amended_witness :
    connReceiveAll rejectBadOracle ⟨[], [], [], []⟩
        (.subscribe "bad" :: [.subscribe "good"])
      = (⟨[], [] ++ [.reject "bad"], [] ++ ["bad"], []⟩, true, 1) :=
  conn_subscribe_rejection_amended rejectBadOracle ⟨[], [], [], []⟩ "bad"
    [.subscribe "good"] (by decide) (by decide)

/-- C8: a subscribe command whose identifier already has a recorded
subscription only re-sends a `confirm_subscription`: the handler is not
invoked again (`handledSubs` unchanged) and no new subscription is recorded
(`unsubscribers` unchanged), with no error. -/
theorem conn_duplicate_subscribe_confirms_only (o : HOracle) (s : ConnState)
    (identifier : String) (hdup : identifier ∈ s.unsubscribers) :
    connReceive o s (.subscribe identifier)
      = ({ s with sent := s.sent ++ [.confirm identifier] }, false) := by
  simp [connReceive, connSubscribe, hdup]

/-- C8 witness: duplicate subscribe on identifier `id1` already recorded. -/
theorem conn_duplicate_subscribe_confirms_only_witness :
    connReceive rejectBadOracle ⟨["id1"], [], [], []⟩ (.subscribe "id1")
      = (⟨["id1"], [] ++ [.confirm "id1"], [], []⟩, false) :=
  conn_duplicate_subscribe_confirms_only rejectBadOracle ⟨["id1"], [], [], []⟩
    "id1" (by decide)

/-- C10: an unsubscribe command whose identifier has no recorded unsubscriber
is a silent no-op: `receive` returns nil with the state (in particular, the
unsubscribers map) unchanged, and the receive loop goes on to process the
remaining commands. -/
theorem conn_unsubscribe_unknown_noop (o : HOracle) (s : ConnState)
    (identifier : String) (rest : List ClientCmd)
    (hno : identifier ∉ s.unsubscribers) :
    connReceive o s (.unsubscribe identifier) = (s, false) ∧
    connReceiveAll o s (.unsubscribe identifier :: rest)
      = ((connReceiveAll o s rest).1, (connReceiveAll o s rest).2.1,
          (connReceiveAll o s rest).2.2 + 1) := by
  constructor
  · simp [connReceive, hno]
  · simp [connReceiveAll, connReceive, hno]

/-- C10 witness: unknown-identifier unsubscribe followed by one more
command. -/
theorem conn_unsubscribe_unknown_noop_witness :
    connReceive rejectBadOracle ⟨["id1"], [], [], []⟩ (.unsubscribe "id2")
      = (⟨["id1"], [], [], []⟩, false) ∧
    connReceiveAll rejectBadOracle ⟨["id1"], [], [], []⟩
        (.unsubscribe "id2" :: [.unsubscribe "id1"])
      = ((connReceiveAll rejectBadOracle ⟨["id1"], [], [], []⟩
            [.unsubscribe "id1"]).1,
         (connReceiveAll rejectBadOracle ⟨["id1"], [], [], []⟩
            [.unsubscribe "id1"]).2.1,
         (connReceiveAll rejectBadOracle ⟨["id1"], [], [], []⟩
            [.unsubscribe "id1"]).2.2 + 1) :=
  conn_unsubscribe_unknown_noop rejectBadOracle ⟨["id1"], [], [], []⟩ "id2"
    [.unsubscribe "id1"] (by decide)

/-! ## Broker.Subscribe (pubsub/broker.go lines 202–225)

A small-step semantics for the part of the broker that `Broker.Subscribe`
touches, with an event trace.  Events:

* `subRun osid topic` — the SUB handler (run synchronously by `TriggerSub`)
  ran to completion; `osid = some sid` when `Subscribe` then went on to create
  hub subscription `sid` (which happens exactly when the handler's error was
  nil or `context.Canceled`, because `TriggerSub` at broker.go lines 143–153
  swallows `context.Canceled`);
* `deliver sid` — the broadcast handler callback of subscription `sid` was
  invoked with a broadcast message (the hub receive callback at broker.go
  lines 210–219 checks `cctx.Err()` first, so nothing is delivered to the
  broadcast handler once the subscription context is done);
* `ctxDone sid` — subscription `sid`'s context became done (its done-channel
  closed) and the hub dropped the subscription;
* `unsubRun sid` — the waiter goroutine at broker.go lines 220–223 observed
  the closed done-channel and ran `TriggerUnsub` synchronously.

The context becoming done and the hub's removal of the subscription are
merged into the single `cancel` step; the delivery guard `sid ∉ doneSids`
models the `cctx.Err()` check, so the merge does not affect which broadcast
handler invocations are possible.  The waiter goroutine is a separate
`unsubFire` step, enabled only once the context is done; a world is
quiescent when every spawned waiter has run. -/

inductive SubRes
  | ok
  | errCanceled
  | errOther
deriving DecidableEq

inductive BrokerEvent
  | subRun (registered : Option Nat) (topic : String)
  | deliver (sid : Nat)
  | ctxDone (sid : Nat)
  | unsubRun (sid : Nat)
deriving DecidableEq

structure BrokerWorld where
  nextSid : Nat
  hubSubs : List (Nat × String)
  doneSids : List Nat
  unsubPending : List Nat
  trace : List BrokerEvent
deriving DecidableEq

def subIds (l : List (Nat × String)) : List Nat := l.map Prod.fst

def cntEvent (e : BrokerEvent) (tr : List BrokerEvent) : Nat :=
  tr.countP (fun x => decide (x = e))

/-- Models one call of `Broker.Subscribe` with SUB handler outcome `res`.
Per broker.go lines 206–208, `TriggerSub` runs the handler first; only a
non-nil error that is not `context.Canceled` makes `TriggerSub` return an
error, in which case `Subscribe` returns a nil channel (`none`) having
registered nothing.  Otherwise a cancellable child context is derived,
`Hub.Subscribe` registers the subscription, the waiter goroutine is spawned,
and the hub subscription's done-channel (`some sid`) is returned. -/
def brokerSubscribe (w : BrokerWorld) (topic : String) (res : SubRes) :
    BrokerWorld × Option Nat :=
  match res with
  | .errOther => ({ w with trace := w.trace ++ [.subRun none topic] }, none)
  | _ =>
    ({ w with
        nextSid := w.nextSid + 1
        hubSubs := w.hubSubs ++ [(w.nextSid, topic)]
        unsubPending := w.unsubPending ++ [w.nextSid]
        trace := w.trace ++ [.subRun (some w.nextSid) topic] }, some w.nextSid)

/-- Broadcast handler invocations produced by one `Hub.Broadcast` on a topic:
every registered subscription on the topic whose context is not yet done. -/
def deliverEvents (w : BrokerWorld) (topic : String) : List BrokerEvent :=
  (w.hubSubs.filter
      (fun p => decide (p.2 = topic) && decide (p.1 ∉ w.doneSids))).map
    (fun p => .deliver p.1)

def brokerBroadcast (w : BrokerWorld) (topic : String) : BrokerWorld :=
  { w with trace := w.trace ++ deliverEvents w topic }

/-- Subscription `sid`'s context becomes done (cancelled by the caller, by the
broadcast handler error path, or by the hub) and the hub unregisters it. -/
def brokerCancel (w : BrokerWorld) (sid : Nat) : BrokerWorld :=
  if sid ∈ subIds w.hubSubs then
    { w with
        hubSubs := w.hubSubs.filter (fun p => decide (p.1 ≠ sid))
        doneSids := w.doneSids ++ [sid]
        trace := w.trace ++ [.ctxDone sid] }
  else w

/-- The waiter goroutine of subscription `sid` runs: it was spawned (pending)
and the done-channel it waits on has closed, so `TriggerUnsub` runs. -/
def brokerUnsubFire (w : BrokerWorld) (sid : Nat) : BrokerWorld :=
  if sid ∈ w.unsubPending ∧ sid ∈ w.doneSids then
    { w with
        unsubPending := w.unsubPending.erase sid
        trace := w.trace ++ [.unsubRun sid] }
  else w

inductive BrokerStep
  | subscribe (topic : String) (res : SubRes)
  | broadcast (topic : String)
  | cancel (sid : Nat)
  | unsubFire (sid : Nat)

def brokerStepRun (w : BrokerWorld) : BrokerStep → BrokerWorld
  | .subscribe topic res => (brokerSubscribe w topic res).1
  | .broadcast topic => brokerBroadcast w topic
  | .cancel sid => brokerCancel w sid
  | .unsubFire sid => brokerUnsubFire w sid

def brokerInit : BrokerWorld := ⟨0, [], [], [], []⟩

def brokerRun : BrokerWorld → List BrokerStep → BrokerWorld
  | w, [] => w
  | w, s :: ss => brokerRun (brokerStepRun w s) ss

/-! ### Broker invariants -/

def hasSubRun (tr : List BrokerEvent) (sid : Nat) : Prop :=
  ∃ (j : Nat) (t : String), tr[j]? = some (BrokerEvent.subRun (some sid) t)

def hasCtxDone (tr : List BrokerEvent) (sid : Nat) : Prop :=
  ∃ (j : Nat), tr[j]? = some (BrokerEvent.ctxDone sid)

/-- Per-subscription-id state invariant: a subscription id is unallocated,
active, done with its waiter still pending, or done with its waiter fired.
The pending list is tracked by multiplicity (each sid is spawned at most one
waiter goroutine). -/
def SidOk (w : BrokerWorld) (sid : Nat) : Prop :=
  (w.nextSid ≤ sid ∧ sid ∉ subIds w.hubSubs ∧ sid ∉ w.doneSids ∧
    w.unsubPending.count sid = 0 ∧ cntEvent (.unsubRun sid) w.trace = 0 ∧
    ¬ hasCtxDone w.trace sid)
  ∨
  (sid < w.nextSid ∧ sid ∈ subIds w.hubSubs ∧ sid ∉ w.doneSids ∧
    w.unsubPending.count sid = 1 ∧ cntEvent (.unsubRun sid) w.trace = 0 ∧
    ¬ hasCtxDone w.trace sid ∧ hasSubRun w.trace sid)
  ∨
  (sid < w.nextSid ∧ sid ∉ subIds w.hubSubs ∧ sid ∈ w.doneSids ∧
    w.unsubPending.count sid = 1 ∧ cntEvent (.unsubRun sid) w.trace = 0 ∧
    hasCtxDone w.trace sid ∧ hasSubRun w.trace sid)
  ∨
  (sid < w.nextSid ∧ sid ∉ subIds w.hubSubs ∧ sid ∈ w.doneSids ∧
    w.unsubPending.count sid = 0 ∧ cntEvent (.unsubRun sid) w.trace = 1 ∧
    hasCtxDone w.trace sid ∧ hasSubRun w.trace sid)

/-- Every broadcast-handler invocation is preceded in the trace by the
completed SUB handler run that created the subscription. -/
def DeliverOrdered (tr : List BrokerEvent) : Prop :=
  ∀ (i : Nat) (sid : Nat), tr[i]? = some (BrokerEvent.deliver sid) →
    ∃ j, j < i ∧ ∃ t, tr[j]? = some (BrokerEvent.subRun (some sid) t)

/-- Every UNSUB handler run is preceded in the trace by the subscription's
context becoming done. -/
def UnsubOrdered (tr : List BrokerEvent) : Prop :=
  ∀ (i : Nat) (sid : Nat), tr[i]? = some (BrokerEvent.unsubRun sid) →
    ∃ j, j < i ∧ tr[j]? = some (BrokerEvent.ctxDone sid)

def BInv (w : BrokerWorld) : Prop :=
  (∀ sid, SidOk w sid) ∧ DeliverOrdered w.trace ∧ UnsubOrdered w.trace

theorem hasSubRun_append (tr tr2 : List BrokerEvent) (sid : Nat)
    (h : hasSubRun tr sid) : hasSubRun (tr ++ tr2) sid := by
  obtain ⟨j, t, hj⟩ := h
  exact ⟨j, t, by
    rw [List.getElem?_append_left (List.getElem?_eq_some.mp hj).1]; exact hj⟩

theorem hasCtxDone_append (tr tr2 : List BrokerEvent) (sid : Nat)
    (h : hasCtxDone tr sid) : hasCtxDone (tr ++ tr2) sid := by
  obtain ⟨j, hj⟩ := h
  exact ⟨j, by
    rw [List.getElem?_append_left (List.getElem?_eq_some.mp hj).1]; exact hj⟩

theorem hasCtxDone_append_iff (tr tr2 : List BrokerEvent) (sid : Nat) :
    hasCtxDone (tr ++ tr2) sid ↔
      hasCtxDone tr sid ∨ hasCtxDone tr2 sid := by
  constructor
  · rintro ⟨j, hj⟩
    by_cases hlt : j < tr.length
    · left; exact ⟨j, by rwa [List.getElem?_append_left hlt] at hj⟩
    · right
      exact ⟨j - tr.length,
        by rwa [List.getElem?_append_right (Nat.le_of_not_lt hlt)] at hj⟩
  · rintro (⟨j, hj⟩ | ⟨j, hj⟩)
    · exact hasCtxDone_append tr tr2 sid ⟨j, hj⟩
    · refine ⟨tr.length + j, ?_⟩
      rw [List.getElem?_append_right (Nat.le_add_right _ _)]
      simpa using hj

theorem cntEvent_append (e : BrokerEvent) (tr tr2 : List BrokerEvent) :
    cntEvent e (tr ++ tr2) = cntEvent e tr + cntEvent e tr2 :=
  List.countP_append _ tr tr2

theorem cntEvent_single_ne (e e2 : BrokerEvent) (hne : e2 ≠ e) :
    cntEvent e [e2] = 0 := by
  simp [cntEvent, hne]

theorem cntEvent_single_eq (e : BrokerEvent) : cntEvent e [e] = 1 := by
  simp [cntEvent]

/-- No `unsubRun` events occur in a batch of deliver events. -/
theorem cntEvent_unsubRun_deliverEvents (w : BrokerWorld) (topic : String)
    (sid : Nat) : cntEvent (.unsubRun sid) (deliverEvents w topic) = 0 := by
  simp only [cntEvent, deliverEvents, List.countP_eq_zero]
  intro e he
  obtain ⟨p, _, rfl⟩ := List.mem_map.mp he
  simp

theorem hasCtxDone_deliverEvents (w : BrokerWorld) (topic : String)
    (sid : Nat) : ¬ hasCtxDone (deliverEvents w topic) sid := by
  rintro ⟨j, hj⟩
  have hmem : BrokerEvent.ctxDone sid ∈ deliverEvents w topic :=
    List.getElem?_mem hj
  obtain ⟨p, _, hp⟩ := List.mem_map.mp hmem
  simp at hp

theorem hasSubRun_last (tr : List BrokerEvent) (sid : Nat) (t : String) :
    hasSubRun (tr ++ [.subRun (some sid) t]) sid :=
  ⟨tr.length, t, by rw [List.getElem?_append_right (Nat.le_refl _)]; simp⟩

theorem hasCtxDone_last (tr : List BrokerEvent) (sid : Nat) :
    hasCtxDone (tr ++ [.ctxDone sid]) sid :=
  ⟨tr.length, by rw [List.getElem?_append_right (Nat.le_refl _)]; simp⟩

theorem not_hasCtxDone_single (e : BrokerEvent) (sid : Nat)
    (hne : e ≠ .ctxDone sid) : ¬ hasCtxDone [e] sid := by
  rintro ⟨j, hj⟩
  exact hne (List.mem_singleton.mp (List.getElem?_mem hj)).symm

theorem deliverOrdered_append (tr tr2 : List BrokerEvent)
    (h : DeliverOrdered tr)
    (h2 : ∀ sid, BrokerEvent.deliver sid ∈ tr2 → hasSubRun tr sid) :
    DeliverOrdered (tr ++ tr2) := by
  intro i sid hi
  by_cases hlt : i < tr.length
  · rw [List.getElem?_append_left hlt] at hi
    obtain ⟨j, hji, t, hj⟩ := h i sid hi
    exact ⟨j, hji, t, by
      rw [List.getElem?_append_left (List.getElem?_eq_some.mp hj).1]; exact hj⟩
  · rw [List.getElem?_append_right (Nat.le_of_not_lt hlt)] at hi
    obtain ⟨j, t, hj⟩ := h2 sid (List.getElem?_mem hi)
    have hjlt : j < tr.length := (List.getElem?_eq_some.mp hj).1
    exact ⟨j, lt_of_lt_of_le hjlt (Nat.le_of_not_lt hlt), t, by
      rw [List.getElem?_append_left hjlt]; exact hj⟩

theorem unsubOrdered_append (tr tr2 : List BrokerEvent)
    (h : UnsubOrdered tr)
    (h2 : ∀ sid, BrokerEvent.unsubRun sid ∈ tr2 → hasCtxDone tr sid) :
    UnsubOrdered (tr ++ tr2) := by
  intro i sid hi
  by_cases hlt : i < tr.length
  · rw [List.getElem?_append_left hlt] at hi
    obtain ⟨j, hji, hj⟩ := h i sid hi
    exact ⟨j, hji, by
      rw [List.getElem?_append_left (List.getElem?_eq_some.mp hj).1]; exact hj⟩
  · rw [List.getElem?_append_right (Nat.le_of_not_lt hlt)] at hi
    obtain ⟨j, hj⟩ := h2 sid (List.getElem?_mem hi)
    have hjlt : j < tr.length := (List.getElem?_eq_some.mp hj).1
    exact ⟨j, lt_of_lt_of_le hjlt (Nat.le_of_not_lt hlt), by
      rw [List.getElem?_append_left hjlt]; exact hj⟩

theorem SidOk_trace_append (w : BrokerWorld) (tr2 : List BrokerEvent)
    (sid : Nat) (h : SidOk w sid)
    (hcnt : cntEvent (.unsubRun sid) tr2 = 0)
    (hcd : ¬ hasCtxDone tr2 sid) :
    SidOk { w with trace := w.trace ++ tr2 } sid := by
  have hiff := hasCtxDone_append_iff w.trace tr2 sid
  rcases h with h | h | h | h
  · refine Or.inl ⟨h.1, h.2.1, h.2.2.1, h.2.2.2.1, ?_, ?_⟩
    · simp [cntEvent_append, h.2.2.2.2.1, hcnt]
    · simp only []; rw [hiff]; rintro (hc | hc)
      exacts [h.2.2.2.2.2 hc, hcd hc]
  · refine Or.inr (Or.inl ⟨h.1, h.2.1, h.2.2.1, h.2.2.2.1, ?_, ?_,
      hasSubRun_append _ _ _ h.2.2.2.2.2.2⟩)
    · simp [cntEvent_append, h.2.2.2.2.1, hcnt]
    · simp only []; rw [hiff]; rintro (hc | hc)
      exacts [h.2.2.2.2.2.1 hc, hcd hc]
  · exact Or.inr (Or.inr (Or.inl ⟨h.1, h.2.1, h.2.2.1, h.2.2.2.1,
      by simp [cntEvent_append, h.2.2.2.2.1, hcnt],
      hasCtxDone_append _ _ _ h.2.2.2.2.2.1,
      hasSubRun_append _ _ _ h.2.2.2.2.2.2⟩))
  · exact Or.inr (Or.inr (Or.inr ⟨h.1, h.2.1, h.2.2.1, h.2.2.2.1,
      by simp [cntEvent_append, h.2.2.2.2.1, hcnt],
      hasCtxDone_append _ _ _ h.2.2.2.2.2.1,
      hasSubRun_append _ _ _ h.2.2.2.2.2.2⟩))

theorem subIds_append (l l2 : List (Nat × String)) :
    subIds (l ++ l2) = subIds l ++ subIds l2 := List.map_append _ l l2

theorem mem_subIds_filter_ne (l : List (Nat × String)) (sid sid0 : Nat)
    (hne : sid ≠ sid0) :
    sid ∈ subIds (l.filter (fun p => decide (p.1 ≠ sid0))) ↔
      sid ∈ subIds l := by
  simp only [subIds, List.mem_map, List.mem_filter, decide_eq_true_eq]
  constructor
  · rintro ⟨p, ⟨hp, _⟩, rfl⟩; exact ⟨p, hp, rfl⟩
  · rintro ⟨p, hp, rfl⟩; exact ⟨p, ⟨hp, hne⟩, rfl⟩

theorem not_mem_subIds_filter_self (l : List (Nat × String)) (sid0 : Nat) :
    sid0 ∉ subIds (l.filter (fun p => decide (p.1 ≠ sid0))) := by
  simp only [subIds, List.mem_map, List.mem_filter, decide_eq_true_eq]
  rintro ⟨p, ⟨_, hne⟩, rfl⟩
  exact hne rfl

theorem binv_init : BInv brokerInit := by
  refine ⟨fun sid => Or.inl ?_, ?_, ?_⟩
  · simp [brokerInit, subIds, cntEvent, hasCtxDone]
  · intro i sid h; simp [brokerInit] at h
  · intro i sid h; simp [brokerInit] at h

theorem binv_step_register (w : BrokerWorld) (topic : String) (hw : BInv w) :
    BInv { w with
        nextSid := w.nextSid + 1
        hubSubs := w.hubSubs ++ [(w.nextSid, topic)]
        unsubPending := w.unsubPending ++ [w.nextSid]
        trace := w.trace ++ [.subRun (some w.nextSid) topic] } := by
  obtain ⟨hsid, hdel, huns⟩ := hw
  refine ⟨fun sid => ?_,
    deliverOrdered_append _ _ hdel (by intro s hm; simp at hm),
    unsubOrdered_append _ _ huns (by intro s hm; simp at hm)⟩
  have hcd : ¬ hasCtxDone [BrokerEvent.subRun (some w.nextSid) topic] sid :=
    not_hasCtxDone_single _ _ (by simp)
  by_cases hn : sid = w.nextSid
  · rcases hsid sid with h | h | h | h
    · refine Or.inr (Or.inl ⟨?_, ?_, h.2.2.1, ?_, ?_, ?_, ?_⟩)
      · show sid < w.nextSid + 1
        omega
      · show sid ∈ subIds (w.hubSubs ++ [(w.nextSid, topic)])
        rw [subIds_append]
        simp [subIds, hn]
      · show (w.unsubPending ++ [w.nextSid]).count sid = 1
        have h4 : w.unsubPending.count sid = 0 := h.2.2.2.1
        rw [List.count_append, h4]
        simp [hn]
      · show cntEvent (.unsubRun sid)
          (w.trace ++ [.subRun (some w.nextSid) topic]) = 0
        have hc0 : cntEvent (.unsubRun sid)
            [BrokerEvent.subRun (some w.nextSid) topic] = 0 :=
          cntEvent_single_ne _ _ (by simp)
        simp [cntEvent_append, h.2.2.2.2.1, hc0]
      · show ¬ hasCtxDone (w.trace ++ [.subRun (some w.nextSid) topic]) sid
        rw [hasCtxDone_append_iff]
        rintro (hc | hc)
        exacts [h.2.2.2.2.2 hc, hcd hc]
      · show hasSubRun (w.trace ++ [.subRun (some w.nextSid) topic]) sid
        rw [hn]
        exact hasSubRun_last _ _ _
    all_goals
      refine absurd h.1 ?_
      have : sid = w.nextSid := hn
      omega
  · have hcnt1 : cntEvent (.unsubRun sid)
        [BrokerEvent.subRun (some w.nextSid) topic] = 0 :=
      cntEvent_single_ne _ _ (by simp)
    have hstep : SidOk { w with
        trace := w.trace ++ [.subRun (some w.nextSid) topic] } sid :=
      SidOk_trace_append w _ sid (hsid sid) hcnt1 hcd
    have hcount : (w.unsubPending ++ [w.nextSid]).count sid =
        w.unsubPending.count sid := by
      simp [List.count_append, List.count_singleton', hn]
    have hmemIds : sid ∈ subIds (w.hubSubs ++ [(w.nextSid, topic)]) ↔
        sid ∈ subIds w.hubSubs := by
      rw [subIds_append]
      simp [subIds, hn]
    rcases hstep with ⟨h1, h2, h3, h4, h5, h6⟩ | ⟨h1, h2, h3, h4, h5, h6, h7⟩ |
      ⟨h1, h2, h3, h4, h5, h6, h7⟩ | ⟨h1, h2, h3, h4, h5, h6, h7⟩
    · have h1a : w.nextSid ≤ sid := h1
      refine Or.inl ⟨?_, ?_, h3, ?_, h5, h6⟩
      · show w.nextSid + 1 ≤ sid
        omega
      · show sid ∉ subIds (w.hubSubs ++ [(w.nextSid, topic)])
        exact fun hc => h2 (hmemIds.mp hc)
      · show (w.unsubPending ++ [w.nextSid]).count sid = 0
        exact hcount.trans h4
    · have h1a : sid < w.nextSid := h1
      refine Or.inr (Or.inl ⟨?_, hmemIds.mpr h2, h3, hcount.trans h4,
        h5, h6, h7⟩)
      show sid < w.nextSid + 1
      omega
    · have h1a : sid < w.nextSid := h1
      refine Or.inr (Or.inr (Or.inl ⟨?_, fun hc => h2 (hmemIds.mp hc), h3,
        hcount.trans h4, h5, h6, h7⟩))
      show sid < w.nextSid + 1
      omega
    · have h1a : sid < w.nextSid := h1
      refine Or.inr (Or.inr (Or.inr ⟨?_, fun hc => h2 (hmemIds.mp hc), h3,
        hcount.trans h4, h5, h6, h7⟩))
      show sid < w.nextSid + 1
      omega

theorem binv_step_broadcast (w : BrokerWorld) (topic : String) (hw : BInv w) :
    BInv (brokerBroadcast w topic) := by
  obtain ⟨hsid, hdel, huns⟩ := hw
  refine ⟨fun sid => SidOk_trace_append w _ sid (hsid sid)
      (cntEvent_unsubRun_deliverEvents w topic sid)
      (hasCtxDone_deliverEvents w topic sid),
    deliverOrdered_append _ _ hdel ?_,
    unsubOrdered_append _ _ huns ?_⟩
  · intro sid hmem
    obtain ⟨p, hpf, hpe⟩ := List.mem_map.mp hmem
    injection hpe with hps
    subst hps
    have hp := List.mem_filter.mp hpf
    have hconj := hp.2
    rw [Bool.and_eq_true, decide_eq_true_eq, decide_eq_true_eq] at hconj
    have hmem2 : p.1 ∈ subIds w.hubSubs := List.mem_map.mpr ⟨p, hp.1, rfl⟩
    rcases hsid p.1 with h | h | h | h
    · exact absurd hmem2 h.2.1
    · exact h.2.2.2.2.2.2
    · exact absurd h.2.2.1 hconj.2
    · exact absurd h.2.2.1 hconj.2
  · intro sid hmem
    obtain ⟨p, _, hpe⟩ := List.mem_map.mp hmem
    simp at hpe

theorem binv_step_cancel (w : BrokerWorld) (sid0 : Nat) (hw : BInv w) :
    BInv (brokerCancel w sid0) := by
  obtain ⟨hsid, hdel, huns⟩ := hw
  unfold brokerCancel
  by_cases hmem : sid0 ∈ subIds w.hubSubs
  · rw [if_pos hmem]
    refine ⟨fun sid => ?_,
      deliverOrdered_append _ _ hdel (by intro s hm; simp at hm),
      unsubOrdered_append _ _ huns (by intro s hm; simp at hm)⟩
    by_cases hn : sid = sid0
    · subst hn
      rcases hsid sid with h | h | h | h
      · exact absurd hmem h.2.1
      · refine Or.inr (Or.inr (Or.inl ⟨h.1, not_mem_subIds_filter_self _ _,
          by simp, h.2.2.2.1, ?_, hasCtxDone_last _ _,
          hasSubRun_append _ _ _ h.2.2.2.2.2.2⟩))
        have hc0 : cntEvent (.unsubRun sid) [BrokerEvent.ctxDone sid] = 0 :=
          cntEvent_single_ne _ _ (by simp)
        simp [cntEvent_append, h.2.2.2.2.1, hc0]
      · exact absurd hmem h.2.1
      · exact absurd hmem h.2.1
    · have hcd : ¬ hasCtxDone [BrokerEvent.ctxDone sid0] sid :=
        not_hasCtxDone_single _ _ (by simp [Ne.symm hn])
      have hcnt0 : cntEvent (.unsubRun sid) [BrokerEvent.ctxDone sid0] = 0 :=
        cntEvent_single_ne _ _ (by simp)
      have hdsmem : sid ∈ w.doneSids ++ [sid0] ↔ sid ∈ w.doneSids := by
        simp [hn]
      rcases hsid sid with h | h | h | h
      · refine Or.inl ⟨h.1, fun hc => h.2.1 ((mem_subIds_filter_ne _ _ _ hn).mp hc),
          fun hc => h.2.2.1 (hdsmem.mp hc), h.2.2.2.1, ?_, ?_⟩
        · simp [cntEvent_append, h.2.2.2.2.1, hcnt0]
        · simp only []; rw [hasCtxDone_append_iff]; rintro (hc | hc)
          exacts [h.2.2.2.2.2 hc, hcd hc]
      · refine Or.inr (Or.inl ⟨h.1, (mem_subIds_filter_ne _ _ _ hn).mpr h.2.1,
          fun hc => h.2.2.1 (hdsmem.mp hc), h.2.2.2.1, ?_, ?_,
          hasSubRun_append _ _ _ h.2.2.2.2.2.2⟩)
        · simp [cntEvent_append, h.2.2.2.2.1, hcnt0]
        · simp only []; rw [hasCtxDone_append_iff]; rintro (hc | hc)
          exacts [h.2.2.2.2.2.1 hc, hcd hc]
      · exact Or.inr (Or.inr (Or.inl
          ⟨h.1, fun hc => h.2.1 ((mem_subIds_filter_ne _ _ _ hn).mp hc),
            hdsmem.mpr h.2.2.1, h.2.2.2.1,
            by simp [cntEvent_append, h.2.2.2.2.1, hcnt0],
            hasCtxDone_append _ _ _ h.2.2.2.2.2.1,
            hasSubRun_append _ _ _ h.2.2.2.2.2.2⟩))
      · exact Or.inr (Or.inr (Or.inr
          ⟨h.1, fun hc => h.2.1 ((mem_subIds_filter_ne _ _ _ hn).mp hc),
            hdsmem.mpr h.2.2.1, h.2.2.2.1,
            by simp [cntEvent_append, h.2.2.2.2.1, hcnt0],
            hasCtxDone_append _ _ _ h.2.2.2.2.2.1,
            hasSubRun_append _ _ _ h.2.2.2.2.2.2⟩))
  · rw [if_neg hmem]; exact ⟨hsid, hdel, huns⟩

theorem binv_step_unsubFire (w : BrokerWorld) (sid0 : Nat) (hw : BInv w) :
    BInv (brokerUnsubFire w sid0) := by
  obtain ⟨hsid, hdel, huns⟩ := hw
  unfold brokerUnsubFire
  by_cases hcond : sid0 ∈ w.unsubPending ∧ sid0 ∈ w.doneSids
  · rw [if_pos hcond]
    have hstate0 : sid0 < w.nextSid ∧ sid0 ∉ subIds w.hubSubs ∧
        w.unsubPending.count sid0 = 1 ∧
        cntEvent (.unsubRun sid0) w.trace = 0 ∧
        hasCtxDone w.trace sid0 ∧ hasSubRun w.trace sid0 := by
      rcases hsid sid0 with h | h | h | h
      · exact absurd (List.count_pos_iff.mpr hcond.1)
          (by rw [h.2.2.2.1]; simp)
      · exact absurd hcond.2 h.2.2.1
      · exact ⟨h.1, h.2.1, h.2.2.2.1, h.2.2.2.2.1, h.2.2.2.2.2.1,
          h.2.2.2.2.2.2⟩
      · exact absurd (List.count_pos_iff.mpr hcond.1)
          (by rw [h.2.2.2.1]; simp)
    refine ⟨fun sid => ?_,
      deliverOrdered_append _ _ hdel (by intro s hm; simp at hm),
      unsubOrdered_append _ _ huns ?_⟩
    · by_cases hn : sid = sid0
      · subst hn
        refine Or.inr (Or.inr (Or.inr ⟨hstate0.1, hstate0.2.1, hcond.2, ?_,
          ?_, hasCtxDone_append _ _ _ hstate0.2.2.2.2.1,
          hasSubRun_append _ _ _ hstate0.2.2.2.2.2⟩))
        · simp only []
          rw [List.count_erase_self, hstate0.2.2.1]
        · simp [cntEvent_append, hstate0.2.2.2.1, cntEvent_single_eq]
      · have hcd : ¬ hasCtxDone [BrokerEvent.unsubRun sid0] sid :=
          not_hasCtxDone_single _ _ (by simp)
        have hcnt0 : cntEvent (.unsubRun sid) [BrokerEvent.unsubRun sid0] = 0 :=
          cntEvent_single_ne _ _ (by simp; exact fun hc => hn hc.symm)
        have hcount : (w.unsubPending.erase sid0).count sid =
            w.unsubPending.count sid := List.count_erase_of_ne hn _
        rcases hsid sid with h | h | h | h
        · refine Or.inl ⟨h.1, h.2.1, h.2.2.1, by rw [hcount]; exact h.2.2.2.1,
            ?_, ?_⟩
          · simp [cntEvent_append, h.2.2.2.2.1, hcnt0]
          · simp only []; rw [hasCtxDone_append_iff]; rintro (hc | hc)
            exacts [h.2.2.2.2.2 hc, hcd hc]
        · refine Or.inr (Or.inl ⟨h.1, h.2.1, h.2.2.1,
            by rw [hcount]; exact h.2.2.2.1, ?_, ?_,
            hasSubRun_append _ _ _ h.2.2.2.2.2.2⟩)
          · simp [cntEvent_append, h.2.2.2.2.1, hcnt0]
          · simp only []; rw [hasCtxDone_append_iff]; rintro (hc | hc)
            exacts [h.2.2.2.2.2.1 hc, hcd hc]
        · exact Or.inr (Or.inr (Or.inl ⟨h.1, h.2.1, h.2.2.1,
            by rw [hcount]; exact h.2.2.2.1,
            by simp [cntEvent_append, h.2.2.2.2.1, hcnt0],
            hasCtxDone_append _ _ _ h.2.2.2.2.2.1,
            hasSubRun_append _ _ _ h.2.2.2.2.2.2⟩))
        · exact Or.inr (Or.inr (Or.inr ⟨h.1, h.2.1, h.2.2.1,
            by rw [hcount]; exact h.2.2.2.1,
            by simp [cntEvent_append, h.2.2.2.2.1, hcnt0],
            hasCtxDone_append _ _ _ h.2.2.2.2.2.1,
            hasSubRun_append _ _ _ h.2.2.2.2.2.2⟩))
    · intro s hm
      have := List.mem_singleton.mp hm
      injection this.symm with hs
      subst hs
      exact hstate0.2.2.2.2.1
  · rw [if_neg hcond]; exact ⟨hsid, hdel, huns⟩

theorem binv_step (w : BrokerWorld) (s : BrokerStep) (hw : BInv w) :
    BInv (brokerStepRun w s) := by
  cases s with
  | subscribe topic res =>
    cases res with
    | errOther =>
      obtain ⟨hsid, hdel, huns⟩ := hw
      refine ⟨fun sid => ?_,
        deliverOrdered_append _ _ hdel (by intro s hm; simp at hm),
        unsubOrdered_append _ _ huns (by intro s hm; simp at hm)⟩
      have hc0 : cntEvent (.unsubRun sid) [BrokerEvent.subRun none topic] = 0 :=
        cntEvent_single_ne _ _ (by simp)
      have hcd : ¬ hasCtxDone [BrokerEvent.subRun none topic] sid :=
        not_hasCtxDone_single _ _ (by simp)
      exact SidOk_trace_append w _ sid (hsid sid) hc0 hcd
    | ok => exact binv_step_register w topic hw
    | errCanceled => exact binv_step_register w topic hw
  | broadcast topic => exact binv_step_broadcast w topic hw
  | cancel sid => exact binv_step_cancel w sid hw
  | unsubFire sid => exact binv_step_unsubFire w sid hw

theorem binv_run (ops : List BrokerStep) (w : BrokerWorld) (hw : BInv w) :
    BInv (brokerRun w ops) := by
  induction ops generalizing w with
  | nil => exact hw
  | cons s ss ih => exact ih (brokerStepRun w s) (binv_step w s hw)

/-! ### Broker claims -/

/-- C4 counterexample: a SUB handler returning `context.Canceled` is a non-nil
error, yet `TriggerSub` swallows it (`errors.Is(err, context.Canceled)` at
broker.go line 148), so `Broker.Subscribe` does not return a nil channel: it
creates the hub subscription and returns its done-channel. -/
theorem broker_subscribe_canceled_error_registers :
    (brokerSubscribe brokerInit "t" .errCanceled).2 = some 0 ∧
    (brokerSubscribe brokerInit "t" .errCanceled).1.hubSubs = [(0, "t")] :=
  ⟨rfl, rfl⟩

/-- C4 (amended): over every execution of the broker model starting from the
empty world: (1) every invocation of a subscription's broadcast handler is
preceded in the trace by the completed SUB handler run of that subscription;
(2) a `Broker.Subscribe` whose SUB handler returns an error other than
`context.Canceled` returns a nil channel and creates no hub subscription;
(3) every UNSUB handler run is preceded by the subscription's context
becoming done; and (4) in a quiescent world (all spawned waiter goroutines
have run), the UNSUB handler of every done subscription has run exactly
once. -/
theorem broker_subscribe_contract
    (ops : List BrokerStep) (w : BrokerWorld)
    (hw : w = brokerRun brokerInit ops)
    (v : BrokerWorld) (topic : String)
    (sidD : Nat) (i : Nat)
    (hdel : w.trace[i]? = some (BrokerEvent.deliver sidD))
    (sidU : Nat) (iu : Nat)
    (huns : w.trace[iu]? = some (BrokerEvent.unsubRun sidU))
    (hq : ∀ s, s ∈ w.unsubPending → s ∉ w.doneSids)
    (sidQ : Nat) (hdone : sidQ ∈ w.doneSids) :
    (∃ j, j < i ∧ ∃ t, w.trace[j]? = some (BrokerEvent.subRun (some sidD) t)) ∧
    (brokerSubscribe v topic .errOther).2 = none ∧
    (brokerSubscribe v topic .errOther).1.hubSubs = v.hubSubs ∧
    (∃ j, j < iu ∧ w.trace[j]? = some (BrokerEvent.ctxDone sidU)) ∧
    cntEvent (.unsubRun sidQ) w.trace = 1 := by
  subst hw
  obtain ⟨hsid, hDel, hUns⟩ := binv_run ops brokerInit binv_init
  refine ⟨hDel i sidD hdel, rfl, rfl, hUns iu sidU huns, ?_⟩
  rcases hsid sidQ with h | h | h | h
  · exact absurd hdone h.2.2.1
  · exact absurd hdone h.2.2.1
  · refine absurd hdone (hq sidQ (List.count_pos_iff.mp ?_))
    rw [h.2.2.2.1]
    exact Nat.zero_lt_one
  · exact h.2.2.2.2.1

/-- One full subscription lifecycle: a successful subscribe on topic `t`, one
broadcast, cancellation of the subscription context, and the waiter goroutine
running UNSUB. -/
def c4ops : List BrokerStep :=
  [.subscribe "t" .ok, .broadcast "t", .cancel 0, .unsubFire 0]

/-- C4 witness: the contract theorem applied to the lifecycle `c4ops`, whose
trace is `[subRun (some 0) t, deliver 0, ctxDone 0, unsubRun 0]`. -/
theorem broker_subscribe_contract_witness :
    (∃ j, j < 1 ∧ ∃ t, (brokerRun brokerInit c4ops).trace[j]? =
        some (BrokerEvent.subRun (some 0) t)) ∧
    (brokerSubscribe brokerInit "t" .errOther).2 = none ∧
    (brokerSubscribe brokerInit "t" .errOther).1.hubSubs
        = brokerInit.hubSubs ∧
    (∃ j, j < 3 ∧ (brokerRun brokerInit c4ops).trace[j]? =
        some (BrokerEvent.ctxDone 0)) ∧
    cntEvent (.unsubRun 0) (brokerRun brokerInit c4ops).trace = 1 :=
  broker_subscribe_contract c4ops _ rfl brokerInit "t" 0 1 (by decide) 0 3
    (by decide)
    (by
      intro s hs
      have hempty : (brokerRun brokerInit c4ops).unsubPending = [] := by decide
      rw [hempty] at hs
      simp at hs)
    0 (by decide)

/-! ## Identifier signing (Signer in the actioncable package)

The `Signer` computes `base64.StdEncoding(hmac-sha512(HashKey, name))` and
checks identifiers of the form `(name, integrity)` by base64-decoding
`integrity` and comparing (with `hmac.Equal`, a constant-time equality on
byte slices) against the freshly computed HMAC.  The Go code calls the
standard library (`crypto/sha512`, `crypto/hmac`, `encoding/base64`); those
routines are implemented executably below, faithful to their specifications
and to Go's behaviour.  Bytes are `Nat` values below 256; 64-bit words are
`Nat` values reduced modulo `2 ^ 64`. -/

def w64 (x : Nat) : Nat := x % 18446744073709551616

def not64 (x : Nat) : Nat := x ^^^ 18446744073709551615

def rotr64 (n x : Nat) : Nat := w64 ((x >>> n) ||| (x <<< (64 - n)))

def bsig0 (x : Nat) : Nat := rotr64 28 x ^^^ rotr64 34 x ^^^ rotr64 39 x

def bsig1 (x : Nat) : Nat := rotr64 14 x ^^^ rotr64 18 x ^^^ rotr64 41 x

def ssig0 (x : Nat) : Nat := rotr64 1 x ^^^ rotr64 8 x ^^^ (x >>> 7)

def ssig1 (x : Nat) : Nat := rotr64 19 x ^^^ rotr64 61 x ^^^ (x >>> 6)

def chFn (x y z : Nat) : Nat := (x &&& y) ^^^ (not64 x &&& z)

def majFn (x y z : Nat) : Nat := (x &&& y) ^^^ (x &&& z) ^^^ (y &&& z)

/-- The SHA-512 round constants (FIPS 180-4): the first 64 bits of the
fractional parts of the cube roots of the first 80 primes. -/
def sha512K : List Nat :=
 [
  4794697086780616226, 8158064640168781261, 13096744586834688815, 16840607885511220156,
  4131703408338449720, 6480981068601479193, 10538285296894168987, 12329834152419229976,
  15566598209576043074, 1334009975649890238, 2608012711638119052, 6128411473006802146,
  8268148722764581231, 9286055187155687089, 11230858885718282805, 13951009754708518548,
  16472876342353939154, 17275323862435702243, 1135362057144423861, 2597628984639134821,
  3308224258029322869, 5365058923640841347, 6679025012923562964, 8573033837759648693,
  10970295158949994411, 12119686244451234320, 12683024718118986047, 13788192230050041572,
  14330467153632333762, 15395433587784984357, 489312712824947311, 1452737877330783856,
  2861767655752347644, 3322285676063803686, 5560940570517711597, 5996557281743188959,
  7280758554555802590, 8532644243296465576, 9350256976987008742, 10552545826968843579,
  11727347734174303076, 12113106623233404929, 14000437183269869457, 14369950271660146224,
  15101387698204529176, 15463397548674623760, 17586052441742319658, 1182934255886127544,
  1847814050463011016, 2177327727835720531, 2830643537854262169, 3796741975233480872,
  4115178125766777443, 5681478168544905931, 6601373596472566643, 7507060721942968483,
  8399075790359081724, 8693463985226723168, 9568029438360202098, 10144078919501101548,
  10430055236837252648, 11840083180663258601, 13761210420658862357, 14299343276471374635,
  14566680578165727644, 15097957966210449927, 16922976911328602910, 17689382322260857208,
  500013540394364858, 748580250866718886, 1242879168328830382, 1977374033974150939,
  2944078676154940804, 3659926193048069267, 4368137639120453308, 4836135668995329356,
  5532061633213252278, 6448918945643986474, 6902733635092675308, 7801388544844847127]

structure Sha512State where
  a : Nat
  b : Nat
  c : Nat
  d : Nat
  e : Nat
  f : Nat
  g : Nat
  hh : Nat
deriving DecidableEq

/-- The SHA-512 initial hash value (FIPS 180-4): the first 64 bits of the
fractional parts of the square roots of the first 8 primes. -/
def sha512H0 : Sha512State :=
  ⟨7640891576956012808, 13503953896175478587, 4354685564936845355,
   11912009170470909681, 5840696475078001361, 11170449401992604703,
   2270897969802886507, 6620516959819538809⟩

def sha512Round (st : Sha512State) (kw : Nat × Nat) : Sha512State :=
  let t1 := w64 (st.hh + bsig1 st.e + chFn st.e st.f st.g + kw.1 + kw.2)
  let t2 := w64 (bsig0 st.a + majFn st.a st.b st.c)
  ⟨w64 (t1 + t2), st.a, st.b, st.c, w64 (st.d + t1), st.e, st.f, st.g⟩

/-- Extends the 16-word message block with `n` further schedule words. -/
def extendSchedule : List Nat → Nat → List Nat
  | ws, 0 => ws
  | ws, n + 1 =>
    let len := ws.length
    let next := w64 (ssig1 (ws.getD (len - 2) 0) + ws.getD (len - 7) 0 +
      ssig0 (ws.getD (len - 15) 0) + ws.getD (len - 16) 0)
    extendSchedule (ws ++ [next]) n

def sha512Block (st : Sha512State) (block : List Nat) : Sha512State :=
  let ws := extendSchedule block 64
  let t := (sha512K.zip ws).foldl sha512Round st
  ⟨w64 (st.a + t.a), w64 (st.b + t.b), w64 (st.c + t.c), w64 (st.d + t.d),
   w64 (st.e + t.e), w64 (st.f + t.f), w64 (st.g + t.g), w64 (st.hh + t.hh)⟩

/-- Big-endian bytes of `x`, `n` bytes long. -/
def toBytesBE : Nat → Nat → List Nat
  | 0, _ => []
  | n + 1, x => toBytesBE n (x / 256) ++ [x % 256]

/-- Big-endian 64-bit words from a byte list whose length is a multiple
of 8. -/
def bytesToWords : List Nat → List Nat
  | b0 :: b1 :: b2 :: b3 :: b4 :: b5 :: b6 :: b7 :: rest =>
    (((((((b0 * 256 + b1) * 256 + b2) * 256 + b3) * 256 + b4) * 256 + b5) *
        256 + b6) * 256 + b7) :: bytesToWords rest
  | _ => []

/-- Groups a word list whose length is a multiple of 16 into blocks. -/
def wordsToBlocks : List Nat → List (List Nat)
  | w0 :: w1 :: w2 :: w3 :: w4 :: w5 :: w6 :: w7 :: w8 :: w9 :: w10 :: w11 ::
      w12 :: w13 :: w14 :: w15 :: rest =>
    [w0, w1, w2, w3, w4, w5, w6, w7, w8, w9, w10, w11, w12, w13, w14, w15] ::
      wordsToBlocks rest
  | _ => []

/-- SHA-512 padding: a `0x80` byte, zeros to 112 mod 128, then the bit length
as a 128-bit big-endian integer. -/
def sha512Pad (msg : List Nat) : List Nat :=
  let k := (128 + 112 - (msg.length + 1) % 128) % 128
  msg ++ [128] ++ List.replicate k 0 ++ toBytesBE 16 (msg.length * 8)

def sha512 (msg : List Nat) : List Nat :=
  let blocks := wordsToBlocks (bytesToWords (sha512Pad msg))
  let st := blocks.foldl sha512Block sha512H0
  toBytesBE 8 st.a ++ toBytesBE 8 st.b ++ toBytesBE 8 st.c ++
    toBytesBE 8 st.d ++ toBytesBE 8 st.e ++ toBytesBE 8 st.f ++
    toBytesBE 8 st.g ++ toBytesBE 8 st.hh

/-- HMAC-SHA512 (RFC 2104, as implemented by crypto/hmac with a block size
of 128 bytes). -/
def hmacSha512 (key msg : List Nat) : List Nat :=
  let k0 := if 128 < key.length then sha512 key else key
  let kp := k0 ++ List.replicate (128 - k0.length) 0
  let ipad := kp.map (fun b => b ^^^ 54)
  let opad := kp.map (fun b => b ^^^ 92)
  sha512 (opad ++ sha512 (ipad ++ msg))

/-- UTF-8 encoding of a character, as Go's string-to-byte-slice conversion
produces for valid code points. -/
def utf8EncodeChar (c : Char) : List Nat :=
  let n := c.toNat
  if n < 128 then [n]
  else if n < 2048 then [192 + n / 64, 128 + n % 64]
  else if n < 65536 then
    [224 + n / 4096, 128 + (n / 64) % 64, 128 + n % 64]
  else
    [240 + n / 262144, 128 + (n / 4096) % 64, 128 + (n / 64) % 64,
      128 + n % 64]

def strBytes (s : String) : List Nat := (s.toList.map utf8EncodeChar).flatten

/-! ### Standard base64 (encoding/base64 StdEncoding)

`b64Decode` models Go's default (non-strict) `DecodeString`: carriage
returns and newlines are skipped, the input must consist of 4-character
quanta with padding only in the final quantum, and — crucially — the unused
trailing bits of the final data character are ignored rather than required to
be zero (Go only enforces zero trailing bits in `Strict()` mode, which the
Signer does not use). -/

def b64Table : List Char :=
  "ABCDEFGHIJKLMNOPQRSTUVWXYZabcdefghijklmnopqrstuvwxyz0123456789+/".toList

def symChar (i : Nat) : Char := b64Table.getD i 'A'

def findIdxFrom : List Char → Char → Nat → Option Nat
  | [], _, _ => none
  | x :: xs, c, k => if x = c then some k else findIdxFrom xs c (k + 1)

def symIndex (c : Char) : Option Nat := findIdxFrom b64Table c 0

def b64EncodeCore : List Nat → List Char
  | [] => []
  | [a] => [symChar (a / 4), symChar ((a % 4) * 16), '=', '=']
  | [a, b] => [symChar (a / 4), symChar ((a % 4) * 16 + b / 16),
      symChar ((b % 16) * 4), '=']
  | a :: b :: c :: rest =>
    symChar (a / 4) :: symChar ((a % 4) * 16 + b / 16) ::
      symChar ((b % 16) * 4 + c / 64) :: symChar (c % 64) ::
      b64EncodeCore rest

def b64DecodeCore : List Char → Option (List Nat)
  | [] => some []
  | c0 :: c1 :: c2 :: c3 :: rest =>
    match symIndex c0, symIndex c1 with
    | some i0, some i1 =>
      if c2 = '=' then
        if c3 = '=' ∧ rest = [] then some [i0 * 4 + i1 / 16] else none
      else
        match symIndex c2 with
        | some i2 =>
          if c3 = '=' then
            if rest = [] then
              some [i0 * 4 + i1 / 16, (i1 % 16) * 16 + i2 / 4]
            else none
          else
            match symIndex c3 with
            | some i3 =>
              match b64DecodeCore rest with
              | some bs => some ((i0 * 4 + i1 / 16) ::
                  ((i1 % 16) * 16 + i2 / 4) :: ((i2 % 4) * 64 + i3) :: bs)
              | none => none
            | none => none
        | none => none
    | _, _ => none
  | _ => none

def b64Encode (bs : List Nat) : String := String.mk (b64EncodeCore bs)

def b64Decode (s : String) : Option (List Nat) :=
  b64DecodeCore
    (s.toList.filter (fun c => decide (c ≠ '\x0d') && decide (c ≠ '\x0a')))

/-! ### The Signer -/

/-- The fields of the JSON subscription identifier that `Signer.Check`
unmarshals (`name` and `integrity`).  The JSON (un)marshalling itself is done
by the external encoding/json package; the model works on the unmarshalled
record. -/
structure IdentifierParams where
  name : String
  integrity : String
deriving DecidableEq

structure SignedName where
  Name : String
  Hash : List Nat
deriving DecidableEq

/-- Models `Signer.parseIdentifier`: base64-decode the integrity field. -/
def parseIdentifier (p : IdentifierParams) : Option SignedName :=
  match b64Decode p.integrity with
  | none => none
  | some bs => some ⟨p.name, bs⟩

/-- Models `Signer.hash`: the HMAC-SHA512 of the name under the configured
hash key. -/
def signerHash (key : List Nat) (name : String) : List Nat :=
  hmacSha512 key (strBytes name)

/-- Models `Signer.validate`: `hmac.Equal` is a constant-time equality test
on byte slices, so it is equality. -/
def signerValidate (key : List Nat) (n : SignedName) : Bool :=
  decide (n.Hash = signerHash key n.Name)

/-- Models `Signer.Check` (returns `true` when the check passes, `false`
when it returns an error). -/
def signerCheck (key : List Nat) (p : IdentifierParams) : Bool :=
  match parseIdentifier p with
  | none => false
  | some n => signerValidate key n

/-- Models `Signer.Sign`. -/
def signerSign (key : List Nat) (name : String) : String :=
  b64Encode (signerHash key name)

/-! ### Base64 facts -/

theorem symIndex_symChar : ∀ i < 64, symIndex (symChar i) = some i := by
  decide

theorem symChar_mem (i : Nat) : symChar i ∈ b64Table := by
  unfold symChar
  rw [List.getD_eq_getElem?_getD]
  rcases h : b64Table[i]? with _ | c
  · decide
  · simpa using List.getElem?_mem h

theorem tableChar_ne : ∀ c ∈ b64Table,
    c ≠ '\x0d' ∧ c ≠ '\x0a' ∧ c ≠ '=' := by
  decide

theorem symChar_ne_pad (i : Nat) : symChar i ≠ '=' :=
  (tableChar_ne _ (symChar_mem i)).2.2

theorem b64EncodeCore_chars : ∀ (bs : List Nat) (c : Char),
    c ∈ b64EncodeCore bs → c ∈ b64Table ∨ c = '='
  | [], c, hc => by simp [b64EncodeCore] at hc
  | [a], c, hc => by
    simp only [b64EncodeCore, List.mem_cons, List.not_mem_nil,
      or_false] at hc
    rcases hc with h | h | h | h
    exacts [Or.inl (h ▸ symChar_mem _), Or.inl (h ▸ symChar_mem _),
      Or.inr h, Or.inr h]
  | [a, b], c, hc => by
    simp only [b64EncodeCore, List.mem_cons, List.not_mem_nil,
      or_false] at hc
    rcases hc with h | h | h | h
    exacts [Or.inl (h ▸ symChar_mem _), Or.inl (h ▸ symChar_mem _),
      Or.inl (h ▸ symChar_mem _), Or.inr h]
  | a :: b :: d :: rest, c, hc => by
    simp only [b64EncodeCore, List.mem_cons] at hc
    rcases hc with h | h | h | h | h
    exacts [Or.inl (h ▸ symChar_mem _), Or.inl (h ▸ symChar_mem _),
      Or.inl (h ▸ symChar_mem _), Or.inl (h ▸ symChar_mem _),
      b64EncodeCore_chars rest c h]

theorem b64Encode_toList_filter (bs : List Nat) :
    (b64Encode bs).toList.filter
        (fun c => decide (c ≠ '\x0d') && decide (c ≠ '\x0a'))
      = b64EncodeCore bs := by
  have h1 : (b64Encode bs).toList = b64EncodeCore bs := rfl
  rw [h1, List.filter_eq_self]
  intro c hc
  rcases b64EncodeCore_chars bs c hc with h | h
  · have := tableChar_ne c h
    simp [this.1, this.2.1]
  · subst h
    decide

theorem b64DecodeCore_encode : ∀ bs : List Nat, (∀ x ∈ bs, x < 256) →
    b64DecodeCore (b64EncodeCore bs) = some bs
  | [], _ => rfl
  | [a], h => by
    have ha : a < 256 := h a (by simp)
    have h0 := symIndex_symChar (a / 4) (by omega)
    have h1 := symIndex_symChar ((a % 4) * 16) (by omega)
    simp [b64EncodeCore, b64DecodeCore, h0, h1]
    omega
  | [a, b], h => by
    have ha : a < 256 := h a (by simp)
    have hb : b < 256 := h b (by simp)
    have h0 := symIndex_symChar (a / 4) (by omega)
    have h1 := symIndex_symChar ((a % 4) * 16 + b / 16) (by omega)
    have h2 := symIndex_symChar ((b % 16) * 4) (by omega)
    have hne2 := symChar_ne_pad ((b % 16) * 4)
    simp [b64EncodeCore, b64DecodeCore, h0, h1, h2, hne2]
    omega
  | a :: b :: d :: rest, h => by
    have ha : a < 256 := h a (by simp)
    have hb : b < 256 := h b (by simp)
    have hd : d < 256 := h d (by simp)
    have h0 := symIndex_symChar (a / 4) (by omega)
    have h1 := symIndex_symChar ((a % 4) * 16 + b / 16) (by omega)
    have h2 := symIndex_symChar ((b % 16) * 4 + d / 64) (by omega)
    have h3 := symIndex_symChar (d % 64) (by omega)
    have hne2 := symChar_ne_pad ((b % 16) * 4 + d / 64)
    have hne3 := symChar_ne_pad (d % 64)
    have hrec := b64DecodeCore_encode rest (fun x hx => h x (by simp [hx]))
    simp [b64EncodeCore, b64DecodeCore, h0, h1, h2, h3, hne2, hne3, hrec]
    omega

theorem b64Decode_encode (bs : List Nat) (h : ∀ x ∈ bs, x < 256) :
    b64Decode (b64Encode bs) = some bs := by
  unfold b64Decode
  rw [b64Encode_toList_filter, b64DecodeCore_encode bs h]

/-! ### Digest shape facts -/

theorem toBytesBE_length (n x : Nat) : (toBytesBE n x).length = n := by
  induction n generalizing x with
  | zero => rfl
  | succ n ih => simp [toBytesBE, ih]

theorem toBytesBE_lt (n x : Nat) : ∀ y ∈ toBytesBE n x, y < 256 := by
  induction n generalizing x with
  | zero => simp [toBytesBE]
  | succ n ih =>
    intro y hy
    simp only [toBytesBE, List.mem_append, List.mem_singleton] at hy
    rcases hy with h | h
    · exact ih _ y h
    · omega

theorem sha512_length (msg : List Nat) : (sha512 msg).length = 64 := by
  simp [sha512, toBytesBE_length]

theorem sha512_lt (msg : List Nat) : ∀ y ∈ sha512 msg, y < 256 := by
  intro y hy
  simp only [sha512, List.mem_append] at hy
  rcases hy with ((((((h | h) | h) | h) | h) | h) | h) | h <;>
    exact toBytesBE_lt _ _ y h

theorem hmacSha512_length (key msg : List Nat) :
    (hmacSha512 key msg).length = 64 := by
  simp only [hmacSha512]
  exact sha512_length _

theorem hmacSha512_lt (key msg : List Nat) :
    ∀ y ∈ hmacSha512 key msg, y < 256 := by
  simp only [hmacSha512]
  exact sha512_lt _

theorem signerHash_length (key : List Nat) (name : String) :
    (signerHash key name).length = 64 := hmacSha512_length _ _

theorem signerHash_lt (key : List Nat) (name : String) :
    ∀ y ∈ signerHash key name, y < 256 := hmacSha512_lt _ _

/-! ### Bit flips -/

/-- Flips bit `j` (bit `j % 8` of byte `j / 8`) of a byte sequence. -/
def flipBitBytes (bs : List Nat) (j : Nat) : List Nat :=
  bs.set (j / 8) (bs.getD (j / 8) 0 ^^^ 2 ^ (j % 8))

theorem flipBitBytes_lt (bs : List Nat) (j : Nat) (h : ∀ x ∈ bs, x < 256) :
    ∀ y ∈ flipBitBytes bs j, y < 256 := by
  intro y hy
  rcases List.mem_or_eq_of_mem_set hy with hm | he
  · exact h y hm
  · subst he
    have h8 : j % 8 < 8 := Nat.mod_lt _ (by norm_num)
    have hp : (2 : Nat) ^ (j % 8) < 2 ^ 8 :=
      Nat.pow_lt_pow_right (by norm_num) h8
    have hg : bs.getD (j / 8) 0 < 256 := by
      rw [List.getD_eq_getElem?_getD]
      rcases hx : bs[j / 8]? with _ | x
      · simp
      · simpa using h x (List.getElem?_mem hx)
    exact Nat.xor_lt_two_pow hg hp

theorem flipBitBytes_ne (bs : List Nat) (j : Nat) (h : j < 8 * bs.length) :
    flipBitBytes bs j ≠ bs := by
  intro heq
  have hi : j / 8 < bs.length := by omega
  have h1 : (flipBitBytes bs j)[j / 8]? =
      some (bs.getD (j / 8) 0 ^^^ 2 ^ (j % 8)) :=
    List.getElem?_set_eq_of_lt _ hi
  rw [heq] at h1
  have h2 : bs[j / 8]? = some (bs.getD (j / 8) 0) := by
    rw [List.getD_eq_getElem?_getD, List.getElem?_eq_getElem hi]
    rfl
  rw [h2] at h1
  have h3 : bs.getD (j / 8) 0 ^^^ 2 ^ (j % 8) = bs.getD (j / 8) 0 :=
    (Option.some_inj.mp h1).symm
  have h4 : (2 : Nat) ^ (j % 8) = 0 := by
    have h5 := congrArg (fun z => bs.getD (j / 8) 0 ^^^ z) h3
    simp only [← Nat.xor_assoc, Nat.xor_self, Nat.zero_xor] at h5
    exact h5
  exact absurd h4 (Nat.pos_iff_ne_zero.mp (Nat.pos_pow_of_pos _ (by norm_num)))

/-! ### Signer claims -/

/-- Checks that two strings differ in exactly one character position, and
there by exactly one bit of the character code. -/
def oneBitFlipChars : List Char → List Char → Bool
  | [], [] => false
  | c :: cs, d :: ds =>
    if c = d then oneBitFlipChars cs ds
    else decide ((c.toNat ^^^ d.toNat) ∈ [1, 2, 4, 8, 16, 32, 64, 128]) &&
      decide (cs = ds)
  | _, _ => false

def oneBitFlipStr (s t : String) : Bool := oneBitFlipChars s.toList t.toList

/-- C6 counterexample: for the key `key` and the stream name `chat_room:7`,
the string below differs from `Sign(name)` by a single bit (bit 3 of the
final data character, one of the four unused trailing bits of the last
base64 symbol), yet `Signer.Check` accepts the identifier carrying it:
Go's default base64 decoding ignores non-zero trailing padding bits, so the
perturbed string decodes to the same 64 HMAC bytes. -/
theorem signer_single_bit_flip_passes_check :
    oneBitFlipStr (signerSign [107, 101, 121] ("chat_room:7"))
      ("JIaRmMy1qVxGOzyaGK0rVLphHNhKEnkMGS+GrZx+/KVbCQRgKhRA2X7Zx4fDRk5NpuGI2fXe2hxJsPCkBvYJ1o==")
      = true ∧
    signerCheck [107, 101, 121]
      ⟨"chat_room:7",
       "JIaRmMy1qVxGOzyaGK0rVLphHNhKEnkMGS+GrZx+/KVbCQRgKhRA2X7Zx4fDRk5NpuGI2fXe2hxJsPCkBvYJ1o=="⟩
      = true := by
  set_option maxRecDepth 100000 in exact ⟨by rfl, by rfl⟩

/-- C6 (amended): for every key and stream name, an identifier whose
integrity field is `Sign(name)` passes `Check`; and flipping any single bit
of the raw 64-byte HMAC-SHA512 signature (before base64 encoding) makes
verification fail.  (A single-bit perturbation of the base64 string itself
need not fail: see the counterexample.) -/
theorem signer_sign_check_roundtrip (key : List Nat) (name : String)
    (j : Nat) (hj : j < 512) :
    signerCheck key ⟨name, signerSign key name⟩ = true ∧
    signerCheck key
        ⟨name, b64Encode (flipBitBytes (signerHash key name) j)⟩ = false := by
  constructor
  · unfold signerCheck parseIdentifier signerSign
    rw [b64Decode_encode _ (signerHash_lt key name)]
    simp [signerValidate]
  · unfold signerCheck parseIdentifier
    rw [b64Decode_encode _
      (flipBitBytes_lt _ j (signerHash_lt key name))]
    simp only [signerValidate, decide_eq_false_iff_not]
    exact flipBitBytes_ne _ j (by rw [signerHash_length]; omega)

/-- C6 witness: the roundtrip theorem at the key `[1]`, the name `a`, and
bit 0 of the raw signature. -/
theorem signer_sign_check_roundtrip_witness :
    signerCheck [1] ⟨"a", signerSign [1] ("a")⟩ = true ∧
    signerCheck [1]
        ⟨"a", b64Encode (flipBitBytes (signerHash [1] ("a")) 0)⟩ = false :=
  signer_sign_check_roundtrip [1] "a" 0 (by omega)

/-! ## HandlerRouter (pubsub/broker-router.go)

A faithful translation of the echo-derived radix-tree router: `Add` (with its
path preprocessing loop and `insert`) and `Find` (with its backtracking
loop).  Paths are `List Char`.  Node parent pointers are represented by the
ancestor stack maintained during `Find`'s descent (the parent chain of the
current node is exactly that stack).  The Go `for` loops become fuel-indexed
recursion; the fuel supplied by the wrappers is ample for every terminating
Go execution, and exhaustion returns the untouched-context outcome.
Handler values are `Option α` (`none` is Go's nil handler), and the
handler selected into the router context is a `RHandler`: a user handler,
the `NotFoundHandler` default, or the `MethodNotAllowedHandler`. -/

def MethodPub : String := "PUB"

def MethodSub : String := "SUB"

def MethodUnsub : String := "UNSUB"

inductive NodeKind
  | staticKind
  | paramKind
  | anyKind
deriving DecidableEq

structure RouteMethod (α : Type) where
  ppath : List Char
  pnames : List (List Char)
  handler : Option α
deriving DecidableEq

structure RouteMethods (α : Type) where
  pub : Option (RouteMethod α)
  sub : Option (RouteMethod α)
  unsub : Option (RouteMethod α)
  others : List (String × RouteMethod α)
deriving DecidableEq

def RouteMethods.set {α : Type} (ms : RouteMethods α) (method : String)
    (rm : RouteMethod α) : RouteMethods α :=
  if method = MethodPub then { ms with pub := some rm }
  else if method = MethodSub then { ms with sub := some rm }
  else if method = MethodUnsub then { ms with unsub := some rm }
  else if rm.handler.isNone then { ms with others := alErase ms.others method }
  else { ms with others := alSet ms.others method rm }

/-- The scalar fields of a router node (`node[HandlerContext]`); `pfx` is the
Go field `prefix`.  The `parent` pointer is omitted: `Find` keeps the
ancestor stack instead. -/
structure NodeData (α : Type) where
  kind : NodeKind
  label : Char
  pfx : List Char
  originalPath : List Char
  methods : RouteMethods α
  paramsCount : Nat
  isLeaf : Bool
  isHandlerFlag : Bool
  notFoundHandler : Option (RouteMethod α)
deriving DecidableEq

inductive RNode (α : Type) where
  | node (data : NodeData α) (staticChildren : List (RNode α))
      (paramChild : Option (RNode α)) (anyChild : Option (RNode α))

def RNode.data {α : Type} : RNode α → NodeData α
  | .node d _ _ _ => d

def RNode.staticChildren {α : Type} : RNode α → List (RNode α)
  | .node _ sc _ _ => sc

def RNode.paramChild {α : Type} : RNode α → Option (RNode α)
  | .node _ _ pc _ => pc

def RNode.anyChild {α : Type} : RNode α → Option (RNode α)
  | .node _ _ _ ac => ac

end Godest
